import Mathlib

/-!
Verification of the alkanes-compiler-service build-cache and orchestration core.

The embedding below translates the TypeScript source (src/src/compiler.ts and
the related revisions in src/unnamed/part_000, src/unnamed/part_001) into Lean:

* `stableHash` (src/unnamed/part_000 and src/src/compiler.ts, `stableHash`):
  the content hasher.  Its JavaScript regex passes are embedded as recursive
  functions on `List Char` below, and the SHA-256 digest is implemented in
  full so that concrete hashes can be evaluated by the kernel.
* `parseABI` (src/src/compiler.ts, `AlkanesCompiler.parseABI`): the ABI
  extractor.  The three JavaScript regex scans are embedded as deterministic
  scanners that replicate the `RegExp.exec` loop (advance to the end of a
  match on success, advance one character on failure).
* `compileModel` (src/unnamed/part_001, second revision,
  `AlkanesCompiler.compile`): the artifact-cache compile pipeline, embedded
  as an explicit state-passing function over a file-system model.
* `pqRun` / the build-lock transition system: models of the concurrency
  limiter (p-queue, spec section 4.5) and the `withBuildLock` registry.
-/

/-! ## JavaScript character classes -/

/-- JavaScript WhiteSpace together with LineTerminator code points: the set
matched by the regex class `\s` (no `u` flag) and removed by `String.trim`. -/
def isJsWS (c : Char) : Bool :=
  c.toNat = 0x9 ∨ c.toNat = 0xA ∨ c.toNat = 0xB ∨ c.toNat = 0xC ∨
  c.toNat = 0xD ∨ c.toNat = 0x20 ∨ c.toNat = 0xA0 ∨ c.toNat = 0x1680 ∨
  (0x2000 ≤ c.toNat ∧ c.toNat ≤ 0x200A) ∨ c.toNat = 0x2028 ∨
  c.toNat = 0x2029 ∨ c.toNat = 0x202F ∨ c.toNat = 0x205F ∨
  c.toNat = 0x3000 ∨ c.toNat = 0xFEFF

/-- JavaScript LineTerminator code points: the positions where a multiline `$`
assertion matches (LF, CR, LS, PS). -/
def isLineTerm (c : Char) : Bool :=
  c.toNat = 0xA ∨ c.toNat = 0xD ∨ c.toNat = 0x2028 ∨ c.toNat = 0x2029

/-- Horizontal whitespace as matched by the regex class `[ \t]`. -/
def isHT (c : Char) : Bool := c = ' ' ∨ c = '\t'

/-! ## The hasher's normalization passes

`stableHash` normalizes with four chained JavaScript string operations
(src/unnamed/part_000 lines 12-16):
`.replace(/\r\n/g, "\n")`, `.replace(/[ \t]+$/gm, "")`,
`.replace(/\n{2,}/g, "\n")`, `.trim()`. -/

/-- Pass 1, `.replace(/\r\n/g, "\n")`: left-to-right, non-overlapping
replacement of each CRLF pair by a single LF. -/
def replaceCRLF : List Char → List Char
  | [] => []
  | [c] => [c]
  | c :: d :: rest =>
    if c = '\r' ∧ d = '\n' then '\n' :: replaceCRLF rest
    else c :: replaceCRLF (d :: rest)

/-- Pass 2, `.replace(/[ \t]+$/gm, "")`: delete every maximal run of spaces
and tabs that is immediately followed by a line terminator or by the end of
the string.  Processing from the right: a space or tab is deleted exactly
when everything between it and the next line terminator (or the end) is also
deleted. -/
def stripKeep (c : Char) (rest : List Char) : List Char :=
  if isHT c then
    match rest with
    | [] => []
    | d :: _ => if isLineTerm d then rest else c :: rest
  else c :: rest

def stripTrailingWS : List Char → List Char
  | [] => []
  | c :: cs => stripKeep c (stripTrailingWS cs)

/-- Pass 3, `.replace(/\n{2,}/g, "\n")`: every maximal run of two or more
LF characters is replaced by a single LF (runs of one are unchanged, so
replacing every maximal run by one LF is equivalent). -/
def collapseNL : List Char → List Char
  | [] => []
  | [c] => [c]
  | c :: d :: rest =>
    if c = '\n' ∧ d = '\n' then collapseNL (d :: rest)
    else c :: collapseNL (d :: rest)

/-- One step of trailing-whitespace removal: keep `c` unless everything after
it was removed and `c` is itself whitespace. -/
def dropEndKeep (c : Char) (rest : List Char) : List Char :=
  match rest with
  | [] => if isJsWS c then [] else [c]
  | d :: t => c :: d :: t

/-- Remove trailing JavaScript whitespace (the second half of `.trim()`). -/
def dropEndWS : List Char → List Char
  | [] => []
  | c :: cs => dropEndKeep c (dropEndWS cs)

/-- Pass 4, `.trim()`: remove leading and trailing JavaScript whitespace. -/
def jsTrim (l : List Char) : List Char :=
  dropEndWS (l.dropWhile isJsWS)

/-- The hasher's full normalization (src/unnamed/part_000 lines 12-16,
src/src/compiler.ts lines 243-247). -/
def normalizeSource (l : List Char) : List Char :=
  jsTrim (collapseNL (stripTrailingWS (replaceCRLF l)))

/-- Normalization lifted to `String`, for stating spec properties. -/
def normalizeStr (s : String) : String := ⟨normalizeSource s.data⟩

/-! ## SHA-256

Node's `crypto.createHash("sha256").update(normalized).digest("hex")` hashes
the UTF-8 bytes of the normalized text.  The digest is implemented here over
`Nat` with explicit reduction mod 2^32 so the kernel can evaluate it. -/

/-- UTF-8 encoding of one character (Node `hash.update(string)` uses UTF-8). -/
def utf8EncodeChar (c : Char) : List Nat :=
  let n := c.toNat
  if n < 0x80 then [n]
  else if n < 0x800 then
    [0xC0 + (n >>> 6), 0x80 + (n % 64)]
  else if n < 0x10000 then
    [0xE0 + (n >>> 12), 0x80 + ((n >>> 6) % 64), 0x80 + (n % 64)]
  else
    [0xF0 + (n >>> 18), 0x80 + ((n >>> 12) % 64), 0x80 + ((n >>> 6) % 64),
     0x80 + (n % 64)]

/-- UTF-8 encoding of a character list. -/
def utf8Encode (l : List Char) : List Nat :=
  l.foldr (fun c acc => utf8EncodeChar c ++ acc) []

/-- 2^32, the word modulus of SHA-256. -/
def M32 : Nat := 4294967296

/-- Right rotation of a 32-bit word. -/
def rotr32 (n x : Nat) : Nat := ((x >>> n) ||| (x <<< (32 - n))) % M32

/-- SHA-256 round constants (FIPS 180-4 section 4.2.2), in decimal. -/
def sha256K : List Nat :=
  [1116352408, 1899447441, 3049323471, 3921009573, 961987163,
   1508970993, 2453635748, 2870763221, 3624381080, 310598401,
   607225278, 1426881987, 1925078388, 2162078206, 2614888103,
   3248222580, 3835390401, 4022224774, 264347078, 604807628,
   770255983, 1249150122, 1555081692, 1996064986, 2554220882,
   2821834349, 2952996808, 3210313671, 3336571891, 3584528711,
   113926993, 338241895, 666307205, 773529912, 1294757372,
   1396182291, 1695183700, 1986661051, 2177026350, 2456956037,
   2730485921, 2820302411, 3259730800, 3345764771, 3516065817,
   3600352804, 4094571909, 275423344, 430227734, 506948616,
   659060556, 883997877, 958139571, 1322822218, 1537002063,
   1747873779, 1955562222, 2024104815, 2227730452, 2361852424,
   2428436474, 2756734187, 3204031479, 3329325298]

/-- SHA-256 initial hash state (FIPS 180-4 section 5.3.3), in decimal. -/
def sha256Init : List Nat :=
  [1779033703, 3144134277, 1013904242, 2773480762,
   1359893119, 2600822924, 528734635, 1541459225]

/-- Big-endian byte serialization of `v` into `n` bytes. -/
def beBytes (n v : Nat) : List Nat :=
  (List.range n).map (fun i => (v >>> (8 * (n - 1 - i))) % 256)

/-- SHA-256 message padding: append 0x80, zeros, and the 64-bit bit length. -/
def padMsg (m : List Nat) : List Nat :=
  m ++ [0x80] ++ List.replicate ((119 - (m.length % 64)) % 64) 0 ++
    beBytes 8 (m.length * 8)

/-- Pack big-endian byte quadruples into 32-bit words. -/
def toWords : List Nat → List Nat
  | a :: b :: c :: d :: rest => (((a * 256 + b) * 256 + c) * 256 + d) :: toWords rest
  | _ => []

/-- SHA-256 sigma-0 message-schedule function. -/
def ssig0 (x : Nat) : Nat := (rotr32 7 x) ^^^ (rotr32 18 x) ^^^ (x >>> 3)

/-- SHA-256 sigma-1 message-schedule function. -/
def ssig1 (x : Nat) : Nat := (rotr32 17 x) ^^^ (rotr32 19 x) ^^^ (x >>> 10)

/-- SHA-256 Sigma-0 compression function. -/
def bsig0 (x : Nat) : Nat := (rotr32 2 x) ^^^ (rotr32 13 x) ^^^ (rotr32 22 x)

/-- SHA-256 Sigma-1 compression function. -/
def bsig1 (x : Nat) : Nat := (rotr32 6 x) ^^^ (rotr32 11 x) ^^^ (rotr32 25 x)

/-- SHA-256 choice function (with 32-bit complement). -/
def chF (x y z : Nat) : Nat := (x &&& y) ^^^ ((x ^^^ 4294967295) &&& z)

/-- SHA-256 majority function. -/
def majF (x y z : Nat) : Nat := (x &&& y) ^^^ (x &&& z) ^^^ (y &&& z)

/-- Extend a 16-word block schedule by `k` further words. -/
def extendSched : List Nat → Nat → List Nat
  | ws, 0 => ws
  | ws, k + 1 =>
    let n := ws.length
    let w := (ssig1 (ws.getD (n - 2) 0) + ws.getD (n - 7) 0 +
              ssig0 (ws.getD (n - 15) 0) + ws.getD (n - 16) 0) % M32
    extendSched (ws ++ [w]) k

/-- One SHA-256 compression round on the 8-word working state. -/
def sha256Round (st : List Nat) (kw : Nat × Nat) : List Nat :=
  match st with
  | [a, b, c, d, e, f, g, h] =>
    let t1 := (h + bsig1 e + chF e f g + kw.1 + kw.2) % M32
    let t2 := (bsig0 a + majF a b c) % M32
    [(t1 + t2) % M32, a, b, c, (d + t1) % M32, e, f, g]
  | _ => st

/-- Compress one 16-word block into the hash state. -/
def compressBlock (h : List Nat) (block : List Nat) : List Nat :=
  let ws := extendSched block 48
  let st := (sha256K.zip ws).foldl sha256Round h
  (h.zip st).map (fun p => (p.1 + p.2) % M32)

/-- Fold the compression over all 16-word blocks (fuel-bounded recursion). -/
def sha256Blocks : List Nat → List Nat → Nat → List Nat
  | h, _, 0 => h
  | h, ws, fuel + 1 =>
    if ws.isEmpty then h
    else sha256Blocks (compressBlock h (ws.take 16)) (ws.drop 16) fuel

/-- Lowercase hexadecimal digit. -/
def hexDigit (n : Nat) : Char :=
  if n < 10 then Char.ofNat (48 + n) else Char.ofNat (87 + n)

/-- Lowercase 8-digit hexadecimal rendering of a 32-bit word. -/
def wordHex (w : Nat) : List Char :=
  (List.range 8).map (fun i => hexDigit ((w >>> (4 * (7 - i))) % 16))

/-- Full SHA-256 digest of a byte list, as 64 lowercase hex characters. -/
def sha256Hex (msg : List Nat) : List Char :=
  let ws := toWords (padMsg msg)
  let dg := sha256Blocks sha256Init ws ws.length
  dg.foldr (fun w acc => wordHex w ++ acc) []

/-- `stableHash` (src/unnamed/part_000 lines 10-23, src/src/compiler.ts lines
242-254): SHA-256 of the UTF-8 bytes of the normalized source, rendered as
lowercase hex and truncated to the first 12 characters. -/
def stableHash (s : String) : String :=
  ⟨(sha256Hex (utf8Encode (normalizeSource s.data))).take 12⟩

/-! ## Structural invariants of the normalization passes -/

/-- No space or tab stands immediately before a line terminator or at the
end of the text: exactly the strings on which `/[ \t]+$/gm` has no match. -/
def goodTW : List Char → Bool
  | [] => true
  | [c] => !(isHT c)
  | c :: d :: rest => (!(isHT c) || !(isLineTerm d)) && goodTW (d :: rest)

/-- No two adjacent LF characters: exactly the strings on which `/\n{2,}/g`
has no match. -/
def noAdjNL : List Char → Bool
  | [] => true
  | [_] => true
  | c :: d :: rest => (!(c = '\n' ∧ d = '\n')) && noAdjNL (d :: rest)

theorem isHT_isJsWS {c : Char} (h : isHT c = true) : isJsWS c = true := by
  simp only [isHT, decide_eq_true_eq] at h
  rcases h with h | h <;> subst h <;> decide

theorem goodTW_tail {c : Char} {l : List Char} (h : goodTW (c :: l) = true) :
    goodTW l = true := by
  cases l with
  | nil => rfl
  | cons d t =>
    simp only [goodTW, Bool.and_eq_true] at h
    exact h.2

theorem noAdjNL_tail {c : Char} {l : List Char}
    (h : noAdjNL (c :: l) = true) : noAdjNL l = true := by
  cases l with
  | nil => rfl
  | cons d t =>
    simp only [noAdjNL, Bool.and_eq_true] at h
    exact h.2

theorem goodTW_stripKeep {c : Char} {rest : List Char}
    (h : goodTW rest = true) : goodTW (stripKeep c rest) = true := by
  unfold stripKeep
  by_cases hc : isHT c = true
  · simp only [hc, if_true]
    cases rest with
    | nil => rfl
    | cons d t =>
      by_cases hd : isLineTerm d = true
      · simpa [hd] using h
      · simp only [hd, if_false, Bool.false_eq_true]
        simpa [goodTW, hc, Bool.not_eq_true', hd] using h
  · simp only [Bool.not_eq_true] at hc
    simp only [hc, Bool.false_eq_true, if_false]
    cases rest with
    | nil => simp [goodTW, hc]
    | cons d t => simpa [goodTW, hc] using h

theorem goodTW_strip (l : List Char) : goodTW (stripTrailingWS l) = true := by
  induction l with
  | nil => rfl
  | cons c cs ih => exact goodTW_stripKeep ih

theorem strip_of_goodTW {l : List Char} (h : goodTW l = true) :
    stripTrailingWS l = l := by
  induction l with
  | nil => rfl
  | cons c cs ih =>
    have hcs : stripTrailingWS cs = cs := ih (goodTW_tail h)
    simp only [stripTrailingWS, hcs]
    unfold stripKeep
    cases cs with
    | nil =>
      have hc : isHT c = false := by
        simpa [goodTW] using h
      simp [hc]
    | cons d t =>
      by_cases hc : isHT c = true
      · have hd : isLineTerm d = false := by
          simp only [goodTW, Bool.and_eq_true, Bool.or_eq_true,
            Bool.not_eq_true'] at h
          rcases h.1 with h1 | h1
          · exact absurd hc (by simp [h1])
          · exact h1
        simp [hc, hd]
      · simp only [Bool.not_eq_true] at hc
        simp [hc]

theorem collapse_cons_cons {c d : Char} {t : List Char}
    (h : ¬(c = '\n' ∧ d = '\n')) :
    collapseNL (c :: d :: t) = c :: collapseNL (d :: t) := by
  simp [collapseNL, h]

theorem collapse_head (t : List Char) :
    ∀ d : Char, ∃ t2, collapseNL (d :: t) = d :: t2 := by
  induction t with
  | nil => intro d; exact ⟨[], rfl⟩
  | cons e t' ih =>
    intro d
    by_cases h : d = '\n' ∧ e = '\n'
    · obtain ⟨hd, he⟩ := h
      subst hd; subst he
      have hstep : collapseNL ('\n' :: '\n' :: t') = collapseNL ('\n' :: t') := by
        simp [collapseNL]
      rw [hstep]
      exact ih '\n'
    · exact ⟨collapseNL (e :: t'), collapse_cons_cons h⟩

theorem noAdjNL_collapse (l : List Char) : noAdjNL (collapseNL l) = true := by
  induction l with
  | nil => rfl
  | cons c cs ih =>
    cases cs with
    | nil => rfl
    | cons d t =>
      by_cases h : c = '\n' ∧ d = '\n'
      · simpa [collapseNL, h] using ih
      · rw [collapse_cons_cons h]
        obtain ⟨t2, ht2⟩ := collapse_head t d
        rw [ht2]
        have ih' : noAdjNL (d :: t2) = true := ht2 ▸ ih
        simp [noAdjNL, h, ih']

theorem collapse_of_noAdjNL {l : List Char} (h : noAdjNL l = true) :
    collapseNL l = l := by
  induction l with
  | nil => rfl
  | cons c cs ih =>
    cases cs with
    | nil => rfl
    | cons d t =>
      have h1 : ¬(c = '\n' ∧ d = '\n') := by
        simp only [noAdjNL, Bool.and_eq_true, Bool.not_eq_true',
          decide_eq_false_iff_not] at h
        exact h.1
      rw [collapse_cons_cons h1, ih (noAdjNL_tail h)]

theorem goodTW_collapse {l : List Char} (h : goodTW l = true) :
    goodTW (collapseNL l) = true := by
  induction l with
  | nil => rfl
  | cons c cs ih =>
    cases cs with
    | nil => simpa [collapseNL] using h
    | cons d t =>
      by_cases hnn : c = '\n' ∧ d = '\n'
      · obtain ⟨hc, hd⟩ := hnn
        subst hc; subst hd
        have hstep : collapseNL ('\n' :: '\n' :: t) = collapseNL ('\n' :: t) := by
          simp [collapseNL]
        rw [hstep]
        exact ih (goodTW_tail h)
      · rw [collapse_cons_cons hnn]
        obtain ⟨t2, ht2⟩ := collapse_head t d
        rw [ht2]
        have ih' : goodTW (d :: t2) = true := ht2 ▸ ih (goodTW_tail h)
        have h1 : (!(isHT c) || !(isLineTerm d)) = true := by
          simp only [goodTW, Bool.and_eq_true] at h
          exact h.1
        simp [goodTW, ih', h1]

theorem dropEnd_shape (c : Char) (cs : List Char) :
    dropEndWS (c :: cs) = [] ∨ ∃ t, dropEndWS (c :: cs) = c :: t := by
  simp only [dropEndWS]
  unfold dropEndKeep
  cases dropEndWS cs with
  | nil =>
    by_cases h : isJsWS c = true
    · left; simp [h]
    · right; exact ⟨[], by simp only [Bool.not_eq_true] at h; simp [h]⟩
  | cons d t => right; exact ⟨d :: t, rfl⟩

theorem goodTW_dropEnd {l : List Char} (h : goodTW l = true) :
    goodTW (dropEndWS l) = true := by
  induction l with
  | nil => rfl
  | cons c cs ih =>
    have ih' := ih (goodTW_tail h)
    simp only [dropEndWS]
    unfold dropEndKeep
    cases hX : dropEndWS cs with
    | nil =>
      by_cases hc : isJsWS c = true
      · simp only [hc, if_true]; rfl
      · have hht : isHT c = false := by
          cases hh : isHT c
          · rfl
          · exact absurd (isHT_isJsWS hh) hc
        simp only [Bool.not_eq_true] at hc
        simp [hc, goodTW, hht]
    | cons d t =>
      have hcs : ∃ cs', cs = d :: cs' := by
        cases cs with
        | nil => simp [dropEndWS] at hX
        | cons e cs' =>
          rcases dropEnd_shape e cs' with h0 | ⟨t', ht'⟩
          · rw [h0] at hX; exact absurd hX (by simp)
          · rw [ht'] at hX
            exact ⟨cs', by rw [List.cons.injEq] at hX; simp [hX.1]⟩
      obtain ⟨cs', hcs⟩ := hcs
      have h1 : (!(isHT c) || !(isLineTerm d)) = true := by
        rw [hcs] at h
        simp only [goodTW, Bool.and_eq_true] at h
        exact h.1
      have h2 : goodTW (d :: t) = true := hX ▸ ih'
      simp [goodTW, h1, h2]

theorem noAdjNL_dropEnd {l : List Char} (h : noAdjNL l = true) :
    noAdjNL (dropEndWS l) = true := by
  induction l with
  | nil => rfl
  | cons c cs ih =>
    have ih' := ih (noAdjNL_tail h)
    simp only [dropEndWS]
    unfold dropEndKeep
    cases hX : dropEndWS cs with
    | nil =>
      by_cases hc : isJsWS c = true
      · simp only [hc, if_true]; rfl
      · simp only [Bool.not_eq_true] at hc
        simp [hc, noAdjNL]
    | cons d t =>
      have hcs : ∃ cs', cs = d :: cs' := by
        cases cs with
        | nil => simp [dropEndWS] at hX
        | cons e cs' =>
          rcases dropEnd_shape e cs' with h0 | ⟨t', ht'⟩
          · rw [h0] at hX; exact absurd hX (by simp)
          · rw [ht'] at hX
            exact ⟨cs', by rw [List.cons.injEq] at hX; simp [hX.1]⟩
      obtain ⟨cs', hcs⟩ := hcs
      have h1 : (!(c = '\n' ∧ d = '\n') : Bool) = true := by
        rw [hcs] at h
        simp only [noAdjNL, Bool.and_eq_true] at h
        exact h.1
      have h2 : noAdjNL (d :: t) = true := hX ▸ ih'
      simp [noAdjNL, h2]
      simpa using h1

theorem goodTW_dropWhile {l : List Char} (h : goodTW l = true) :
    goodTW (l.dropWhile isJsWS) = true := by
  induction l with
  | nil => rfl
  | cons c cs ih =>
    by_cases hc : isJsWS c = true
    · simpa [List.dropWhile, hc] using ih (goodTW_tail h)
    · simp only [Bool.not_eq_true] at hc
      simpa [List.dropWhile, hc] using h

theorem noAdjNL_dropWhile {l : List Char} (h : noAdjNL l = true) :
    noAdjNL (l.dropWhile isJsWS) = true := by
  induction l with
  | nil => rfl
  | cons c cs ih =>
    by_cases hc : isJsWS c = true
    · simpa [List.dropWhile, hc] using ih (noAdjNL_tail h)
    · simp only [Bool.not_eq_true] at hc
      simpa [List.dropWhile, hc] using h

theorem goodTW_trim {l : List Char} (h : goodTW l = true) :
    goodTW (jsTrim l) = true :=
  goodTW_dropEnd (goodTW_dropWhile h)

theorem noAdjNL_trim {l : List Char} (h : noAdjNL l = true) :
    noAdjNL (jsTrim l) = true :=
  noAdjNL_dropEnd (noAdjNL_dropWhile h)

theorem dropEnd_idem (l : List Char) :
    dropEndWS (dropEndWS l) = dropEndWS l := by
  induction l with
  | nil => rfl
  | cons c cs ih =>
    have hstep : dropEndWS (c :: cs) = dropEndKeep c (dropEndWS cs) := rfl
    rw [hstep]
    cases hX : dropEndWS cs with
    | nil =>
      by_cases hc : isJsWS c = true
      · simp [dropEndKeep, hc]; rfl
      · simp only [Bool.not_eq_true] at hc
        simp [dropEndKeep, hc, dropEndWS]
    | cons d t =>
      have h2 : dropEndWS (d :: t) = d :: t := by rw [← hX]; exact ih
      have hk : dropEndKeep c (d :: t) = c :: d :: t := rfl
      rw [hk]
      show dropEndKeep c (dropEndWS (d :: t)) = c :: d :: t
      rw [h2, hk]

theorem dropWhile_head_false {l t : List Char} {c : Char}
    (h : l.dropWhile isJsWS = c :: t) : isJsWS c = false := by
  induction l with
  | nil => simp at h
  | cons e l' ih =>
    by_cases he : isJsWS e = true
    · rw [List.dropWhile_cons_of_pos he] at h
      exact ih h
    · simp only [Bool.not_eq_true] at he
      rw [List.dropWhile_cons_of_neg (by simp [he])] at h
      rw [List.cons.injEq] at h
      rw [← h.1]; exact he

theorem trim_dropWhile (l : List Char) :
    (jsTrim l).dropWhile isJsWS = jsTrim l := by
  unfold jsTrim
  cases hX : l.dropWhile isJsWS with
  | nil => rfl
  | cons c t =>
    have hc : isJsWS c = false := dropWhile_head_false hX
    rcases dropEnd_shape c t with h0 | ⟨t2, ht2⟩
    · rw [h0]; rfl
    · rw [ht2]
      exact List.dropWhile_cons_of_neg (by simp [hc])

theorem trim_idem (l : List Char) : jsTrim (jsTrim l) = jsTrim l := by
  conv_lhs => rw [jsTrim, trim_dropWhile]
  rw [jsTrim, dropEnd_idem]

/-! ## Carriage-return-free inputs and idempotence of normalization -/

theorem strip_sublist (l : List Char) : List.Sublist (stripTrailingWS l) l := by
  induction l with
  | nil => exact List.Sublist.refl []
  | cons c cs ih =>
    have : stripKeep c (stripTrailingWS cs) = c :: stripTrailingWS cs ∨
        stripKeep c (stripTrailingWS cs) = stripTrailingWS cs ∨
        stripKeep c (stripTrailingWS cs) = [] := by
      unfold stripKeep
      by_cases hc : isHT c = true
      · simp only [hc, if_true]
        cases stripTrailingWS cs with
        | nil => right; right; rfl
        | cons d t =>
          by_cases hd : isLineTerm d = true
          · right; left; simp [hd]
          · left; simp [hd]
      · simp only [Bool.not_eq_true] at hc
        left; simp [hc]
    show List.Sublist (stripKeep c (stripTrailingWS cs)) (c :: cs)
    rcases this with h | h | h
    · rw [h]; exact ih.cons₂ c
    · rw [h]; exact ih.cons c
    · rw [h]; exact (List.nil_sublist cs).cons c

theorem collapse_sublist (l : List Char) : List.Sublist (collapseNL l) l := by
  induction l with
  | nil => exact List.Sublist.refl []
  | cons c cs ih =>
    cases cs with
    | nil => exact List.Sublist.refl [c]
    | cons d t =>
      by_cases h : c = '\n' ∧ d = '\n'
      · obtain ⟨hc, hd⟩ := h
        subst hc; subst hd
        have hstep : collapseNL ('\n' :: '\n' :: t) = collapseNL ('\n' :: t) := by
          simp [collapseNL]
        rw [hstep]
        exact ih.cons '\n'
      · rw [collapse_cons_cons h]
        exact ih.cons₂ c

theorem dropEnd_sublist (l : List Char) : List.Sublist (dropEndWS l) l := by
  induction l with
  | nil => exact List.Sublist.refl []
  | cons c cs ih =>
    show List.Sublist (dropEndKeep c (dropEndWS cs)) (c :: cs)
    unfold dropEndKeep
    cases hX : dropEndWS cs with
    | nil =>
      by_cases hc : isJsWS c = true
      · simp only [hc, if_true]
        exact (List.nil_sublist cs).cons c
      · simp only [Bool.not_eq_true] at hc
        simp only [hc, Bool.false_eq_true, if_false]
        exact (List.nil_sublist cs).cons₂ c
    | cons d t =>
      exact (hX ▸ ih).cons₂ c

theorem trim_sublist (l : List Char) : List.Sublist (jsTrim l) l :=
  (dropEnd_sublist _).trans ((List.dropWhile_sublist _).trans (List.Sublist.refl l))

theorem replaceCRLF_crfree {l : List Char} (h : '\r' ∉ l) :
    replaceCRLF l = l := by
  induction l with
  | nil => rfl
  | cons c cs ih =>
    have hc : c ≠ '\r' := fun hc => h (hc ▸ List.mem_cons_self c cs)
    have hcs : '\r' ∉ cs := fun hm => h (List.mem_cons_of_mem c hm)
    cases cs with
    | nil => rfl
    | cons d t =>
      have hcond : ¬(c = '\r' ∧ d = '\n') := fun hp => hc hp.1
      simp only [replaceCRLF, hcond, if_false]
      rw [ih hcs]

theorem crfree_normalize {l : List Char} (h : '\r' ∉ l) :
    '\r' ∉ normalizeSource l := by
  intro hmem
  apply h
  unfold normalizeSource at hmem
  rw [replaceCRLF_crfree h] at hmem
  exact (strip_sublist l).subset
    ((collapse_sublist _).subset ((trim_sublist _).subset hmem))

/-- Normalization is idempotent on carriage-return-free text. -/
theorem normalize_idem_crfree {l : List Char} (h : '\r' ∉ l) :
    normalizeSource (normalizeSource l) = normalizeSource l := by
  conv_lhs => rw [normalizeSource]
  rw [replaceCRLF_crfree (crfree_normalize h)]
  have hg : goodTW (normalizeSource l) = true :=
    goodTW_trim (goodTW_collapse (goodTW_strip _))
  rw [strip_of_goodTW hg]
  have hn : noAdjNL (normalizeSource l) = true :=
    noAdjNL_trim (noAdjNL_collapse _)
  rw [collapse_of_noAdjNL hn]
  show jsTrim (jsTrim (collapseNL (stripTrailingWS (replaceCRLF l)))) =
    normalizeSource l
  rw [trim_idem]
  rfl

/-! ## Claim C1: hash stability under normalization -/

/-- C1 counterexample: the claim `hash(s) == hash(normalize(s))` fails at
`s = "a\r \nb"`.  Stripping the trailing space exposes a CRLF pair after the
CRLF pass has already run, so `normalize(s) = "a\r\nb"`, which normalizes
further to `"a\nb"`; the two truncated digests differ.  The same input also
refutes the consequence: `"a\r \nb"` and `"a\r\nb"` differ only by one
trailing space on a line, yet hash differently. -/
theorem C1_counterexample :
    stableHash "a\r \nb" ≠ stableHash (normalizeStr "a\r \nb") ∧
    normalizeStr "a\r \nb" = "a\r\nb" ∧
    stableHash "a\r \nb" ≠ stableHash "a\r\nb" := by
  refine ⟨by decide, by decide, by decide⟩

/-- C1 (amended): for every source string with no carriage-return character,
`hash(s) == hash(normalize(s))` where `normalize` is the hasher's own
normalization; and any two strings with the same normalization (in
particular CR-free strings differing only by trailing spaces/tabs on lines,
repetition of blank lines, or leading/trailing blank lines) produce the same
ContentKey. -/
theorem C1_amended :
    (∀ s : String, '\r' ∉ s.data →
      stableHash s = stableHash (normalizeStr s)) ∧
    (∀ s t : String, normalizeStr s = normalizeStr t →
      stableHash s = stableHash t) := by
  constructor
  · intro s h
    unfold stableHash
    have hdata : (normalizeStr s).data = normalizeSource s.data := rfl
    rw [hdata, normalize_idem_crfree h]
  · intro s t h
    unfold stableHash
    have hdata : normalizeSource s.data = normalizeSource t.data :=
      congrArg String.data h
    rw [hdata]

/-- C1 witness: the amended theorem applied at concrete CR-free inputs
(`"a\n\n\nb"`, and the pair `"a\n\nb "` / `"a\nb"` differing only by blank
lines and a trailing space). -/
theorem C1_amended_witness :
    stableHash "a\n\n\nb" = stableHash (normalizeStr "a\n\n\nb") ∧
    stableHash "a\n\nb " = stableHash "a\nb" :=
  ⟨C1_amended.1 "a\n\n\nb" (by decide),
   C1_amended.2 "a\n\nb " "a\nb" (by decide)⟩

/-! ## Claim C5: what the normalization actually does -/

/-- C5 counterexample: at `"a\n\nb"`, where the two non-blank lines are
separated by one blank line, the normalized text is `"a\nb"`: the blank line
is deleted (no two adjacent LFs remain), not preserved as exactly one blank
line.  And a lone CR in `"a\rb"` is left untouched, so line terminators are
not all converted to a single canonical form. -/
theorem C5_counterexample :
    normalizeStr "a\n\nb" = "a\nb" ∧
    noAdjNL (normalizeStr "a\n\nb").data = true ∧
    normalizeStr "a\rb" = "a\rb" := by
  refine ⟨by decide, by decide, by decide⟩

/-- C5 (amended): the normalization converts CRLF pairs to LF (lone CR, LS,
PS are left as-is), strips trailing spaces/tabs before every line terminator
and at the end, replaces every run of two or more LFs by a single LF — so
blank lines are deleted and two non-blank lines formerly separated by blank
lines end up separated by exactly one LF — and trims leading and trailing
whitespace.  Consequently the normalized text never has a space/tab before a
line terminator or at the end, never has two adjacent LFs, and is trimmed. -/
theorem C5_amended (s : String) :
    goodTW (normalizeSource s.data) = true ∧
    noAdjNL (normalizeSource s.data) = true ∧
    jsTrim (normalizeSource s.data) = normalizeSource s.data := by
  refine ⟨goodTW_trim (goodTW_collapse (goodTW_strip _)),
    noAdjNL_trim (noAdjNL_collapse _), ?_⟩
  show jsTrim (normalizeSource s.data) = normalizeSource s.data
  unfold normalizeSource
  rw [trim_idem]

/-! ## ABI extraction (`AlkanesCompiler.parseABI`, src/src/compiler.ts
lines 128-177)

Each of the three JavaScript regex scans is embedded as a deterministic
matcher at a position plus a driver replicating the `exec` loop with the `g`
flag: on a match, scanning resumes at the end of the match; on failure, it
advances one character.  The regexes involved are deterministic in the sense
that backtracking never yields an alternative match at the same start
position, so maximal-run scanning is faithful. -/

/-- Characters matched by the regex class `\w` (ASCII letters, digits, underscore). -/
def isWordC (c : Char) : Bool := c.isAlphanum || c = '_'

/-- Characters matched by `[A-Za-z_]` (identifier start). -/
def isIdStart (c : Char) : Bool := c.isAlpha || c = '_'

/-- Characters matched by `[\w<>]` (type expressions with angle brackets). -/
def isWordAngle (c : Char) : Bool := isWordC c || c = '<' || c = '>'

/-- Match a literal character sequence at the head, returning the remainder. -/
def stripLit : List Char → List Char → Option (List Char)
  | [], rest => some rest
  | _ :: _, [] => none
  | p :: ps, c :: cs => if c = p then stripLit ps cs else none

/-- `parseInt(digits, 10)` on a nonempty digit capture. -/
def digitsToNat (l : List Char) : Nat :=
  l.foldl (fun acc c => acc * 10 + (c.toNat - 48)) 0

/-- The four captures of one method-marker match. -/
structure RawMethod where
  opcode : Nat
  rets : Option (List Char)
  name : List Char
  fields : Option (List Char)
  deriving DecidableEq, Repr

/-- Attempt to match the method-marker regex
`#\[opcode\((\d+)\)\](?:\s*#\[returns\(([^)]+)\)\])?\s*([A-Za-z_][A-Za-z0-9_]*)\s*(?:\{([^}]*)\})?`
at the head of `l`; on success, return the captures and the remainder after
the match.  The optional groups are deterministic: they match exactly when
maximal whitespace is followed by their literal opener and a well-formed
body, and otherwise match empty (consuming nothing). -/
def matchMethodAt (l : List Char) : Option (RawMethod × List Char) :=
  match stripLit "#[opcode(".data l with
  | none => none
  | some r1 =>
    let ds := r1.takeWhile Char.isDigit
    if ds.isEmpty then none
    else
      match stripLit ")]".data (r1.dropWhile Char.isDigit) with
      | none => none
      | some r3 =>
        let retsStep :=
          match stripLit "#[returns(".data (r3.dropWhile isJsWS) with
          | none => none
          | some t =>
            let cap := t.takeWhile (fun c => decide (c ≠ ')'))
            if cap.isEmpty then none
            else
              match stripLit ")]".data (t.dropWhile (fun c => decide (c ≠ ')'))) with
              | none => none
              | some u => some (cap, u)
        let st :=
          match retsStep with
          | none => (none, r3)
          | some (cap, u) => (some cap, u)
        let r5 := st.2.dropWhile isJsWS
        match r5 with
        | [] => none
        | c :: _ =>
          if isIdStart c then
            let nm := r5.takeWhile isWordC
            let r6 := r5.dropWhile isWordC
            let blockStep :=
              match stripLit "\x7b".data (r6.dropWhile isJsWS) with
              | none => none
              | some t =>
                let cap := t.takeWhile (fun c => decide (c ≠ '\x7d'))
                match stripLit "\x7d".data (t.dropWhile (fun c => decide (c ≠ '\x7d'))) with
                | none => none
                | some u => some (cap, u)
            match blockStep with
            | none =>
              some ({ opcode := digitsToNat ds, rets := st.1, name := nm,
                      fields := none }, r6)
            | some (cap, u) =>
              some ({ opcode := digitsToNat ds, rets := st.1, name := nm,
                      fields := some cap }, u)
          else none

/-- The `messageRegex.exec` loop: fuel-bounded left-to-right scan. -/
def scanMethodsAux : Nat → List Char → List RawMethod
  | 0, _ => []
  | _ + 1, [] => []
  | fuel + 1, c :: cs =>
    match matchMethodAt (c :: cs) with
    | some (m, rest) => m :: scanMethodsAux fuel rest
    | none => scanMethodsAux fuel cs

/-- All method-marker matches of a source text, in source order. -/
def scanMethods (l : List Char) : List RawMethod := scanMethodsAux l.length l

/-- Attempt to match the field regex `(\w+)\s*:\s*([\w<>]+)` at the head. -/
def matchFieldAt (l : List Char) :
    Option ((List Char × List Char) × List Char) :=
  match l with
  | [] => none
  | c :: _ =>
    if isWordC c then
      let nm := l.takeWhile isWordC
      let r1 := (l.dropWhile isWordC).dropWhile isJsWS
      match r1 with
      | ':' :: r2 =>
        let r3 := r2.dropWhile isJsWS
        let ty := r3.takeWhile isWordAngle
        if ty.isEmpty then none
        else some ((nm, ty), r3.dropWhile isWordAngle)
      | _ => none
    else none

/-- The `fieldRegex.exec` loop over a brace-block capture. -/
def scanFieldsAux : Nat → List Char → List (List Char × List Char)
  | 0, _ => []
  | _ + 1, [] => []
  | fuel + 1, c :: cs =>
    match matchFieldAt (c :: cs) with
    | some (f, rest) => f :: scanFieldsAux fuel rest
    | none => scanFieldsAux fuel cs

/-- All field matches of a block, in order. -/
def scanFields (l : List Char) : List (List Char × List Char) :=
  scanFieldsAux l.length l

/-- Attempt to match `pub\s+struct\s+(\w+)` at the head. -/
def matchStructAt (l : List Char) : Option (List Char × List Char) :=
  match stripLit "pub".data l with
  | none => none
  | some r1 =>
    if (r1.takeWhile isJsWS).isEmpty then none
    else
      match stripLit "struct".data (r1.dropWhile isJsWS) with
      | none => none
      | some r2 =>
        if (r2.takeWhile isJsWS).isEmpty then none
        else
          let r3 := r2.dropWhile isJsWS
          let nm := r3.takeWhile isWordC
          if nm.isEmpty then none else some (nm, r3.dropWhile isWordC)

/-- The `structRegex.exec` loop. -/
def scanStructsAux : Nat → List Char → List (List Char)
  | 0, _ => []
  | _ + 1, [] => []
  | fuel + 1, c :: cs =>
    match matchStructAt (c :: cs) with
    | some (n, rest) => n :: scanStructsAux fuel rest
    | none => scanStructsAux fuel cs

/-- All `pub struct` name captures, in source order. -/
def scanStructs (l : List Char) : List (List Char) := scanStructsAux l.length l

/-- Attempt to match `StoragePointer::from_keyword\("([^"]+)"\)` at the head. -/
def matchStorageAt (l : List Char) : Option (List Char × List Char) :=
  match stripLit "StoragePointer::from_keyword(\"".data l with
  | none => none
  | some r1 =>
    let cap := r1.takeWhile (fun c => decide (c ≠ '"'))
    if cap.isEmpty then none
    else
      match stripLit "\")".data (r1.dropWhile (fun c => decide (c ≠ '"'))) with
      | none => none
      | some r2 => some (cap, r2)

/-- The `storageRegex.exec` loop. -/
def scanStorageAux : Nat → List Char → List (List Char)
  | 0, _ => []
  | _ + 1, [] => []
  | fuel + 1, c :: cs =>
    match matchStorageAt (c :: cs) with
    | some (k, rest) => k :: scanStorageAux fuel rest
    | none => scanStorageAux fuel cs

/-- All storage-keyword captures, in source order. -/
def scanStorage (l : List Char) : List (List Char) := scanStorageAux l.length l

/-- `AlkanesInput` (src/src/types.ts). -/
structure AlkanesInput where
  name : String
  type : String
  deriving DecidableEq, Repr

/-- `AlkanesMethod` (src/src/types.ts); opcodes are exact naturals. -/
structure AlkanesMethod where
  opcode : Nat
  name : String
  inputs : List AlkanesInput
  outputs : List String
  deriving DecidableEq, Repr

/-- `StorageKey` (src/src/types.ts). -/
structure StorageKey where
  key : String
  type : String
  deriving DecidableEq, Repr

/-- `AlkanesABI` (src/src/types.ts); the `opcodes` record is modeled as an
insertion-ordered association list with JavaScript object semantics. -/
structure AlkanesABI where
  name : String
  version : String
  methods : List AlkanesMethod
  storage : List StorageKey
  opcodes : List (String × Nat)
  deriving DecidableEq, Repr

/-- JavaScript object assignment `m[k] = v`: overwrite the value in place if
the key exists, otherwise append the pair. -/
def recordSet (m : List (String × Nat)) (k : String) (v : Nat) :
    List (String × Nat) :=
  if m.any (fun p => p.1 == k) then
    m.map (fun p => if p.1 == k then (k, v) else p)
  else m ++ [(k, v)]

/-- JavaScript object read `m[k]`. -/
def recordGet (m : List (String × Nat)) (k : String) : Option Nat :=
  (m.find? (fun p => p.1 == k)).map (fun p => p.2)

/-- Build one `AlkanesMethod` from a raw match, as the `while` body does:
outputs from the optional returns capture (trimmed), inputs from scanning
the field block when it is present and nonempty after trimming. -/
def toMethod (r : RawMethod) : AlkanesMethod :=
  { opcode := r.opcode
    name := ⟨r.name⟩
    inputs :=
      match r.fields with
      | some b =>
        if (jsTrim b).isEmpty then []
        else (scanFields b).map
          (fun f => { name := ⟨jsTrim f.1⟩, type := ⟨jsTrim f.2⟩ })
      | none => []
    outputs :=
      match r.rets with
      | some t => [⟨jsTrim t⟩]
      | none => [] }

/-- `AlkanesCompiler.parseABI` (src/src/compiler.ts lines 128-177): methods
and the opcode record from the message scan, contract name from the first
`pub struct`, storage slots from the keyword scan, fixed version. -/
def parseABI (s : String) : AlkanesABI :=
  let raws := scanMethods s.data
  { name :=
      match scanStructs s.data with
      | n :: _ => ⟨n⟩
      | [] => "UnknownContract"
    version := "1.0.0"
    methods := raws.map toMethod
    storage := (scanStorage s.data).map
      (fun k => { key := ⟨k⟩, type := "Vec<u8>" })
    opcodes := raws.foldl (fun m r => recordSet m ⟨r.name⟩ r.opcode) [] }

/-! ## Helper lemmas for the ABI claims -/

theorem parseABI_methods (s : String) :
    (parseABI s).methods = (scanMethods s.data).map toMethod := rfl

theorem parseABI_opcodes (s : String) :
    (parseABI s).opcodes = (scanMethods s.data).foldl
      (fun m r => recordSet m ⟨r.name⟩ r.opcode) [] := rfl

theorem parseABI_storage (s : String) :
    (parseABI s).storage = (scanStorage s.data).map
      (fun k => { key := ⟨k⟩, type := "Vec<u8>" }) := rfl

theorem isJsWS_not_isWordC {c : Char} (h : isJsWS c = true) :
    isWordC c = false := by
  have hc := (Char.ofNat_toNat c).symm
  simp only [isJsWS, decide_eq_true_eq] at h
  rcases h with h|h|h|h|h|h|h|h|h|h|h|h|h|h|h
  · rw [hc, h]; decide
  · rw [hc, h]; decide
  · rw [hc, h]; decide
  · rw [hc, h]; decide
  · rw [hc, h]; decide
  · rw [hc, h]; decide
  · rw [hc, h]; decide
  · rw [hc, h]; decide
  · obtain ⟨h1, h2⟩ := h
    interval_cases h : c.toNat <;> (rw [hc]; decide)
  · rw [hc, h]; decide
  · rw [hc, h]; decide
  · rw [hc, h]; decide
  · rw [hc, h]; decide
  · rw [hc, h]; decide
  · rw [hc, h]; decide

theorem dropEnd_nil_all {l : List Char} (h : dropEndWS l = []) :
    ∀ c ∈ l, isJsWS c = true := by
  induction l with
  | nil => intro c hc; cases hc
  | cons c cs ih =>
    intro d hd
    have hshape : dropEndWS (c :: cs) = dropEndKeep c (dropEndWS cs) := rfl
    rw [hshape] at h
    cases hX : dropEndWS cs with
    | cons e t =>
      rw [hX] at h
      exact absurd h (by simp [dropEndKeep])
    | nil =>
      rw [hX] at h
      unfold dropEndKeep at h
      by_cases hw : isJsWS c = true
      · rcases List.mem_cons.mp hd with h1 | h1
        · subst h1; exact hw
        · exact ih hX d h1
      · simp only [Bool.not_eq_true] at hw
        simp [hw] at h

theorem trim_nil_all {l : List Char} (h : jsTrim l = []) :
    ∀ c ∈ l, isJsWS c = true := by
  intro c hc
  unfold jsTrim at h
  have hall := dropEnd_nil_all h
  have hsplit := List.takeWhile_append_dropWhile (p := isJsWS) (l := l)
  rw [← hsplit] at hc
  rcases List.mem_append.mp hc with h1 | h1
  · exact List.mem_takeWhile_imp h1
  · exact hall c h1

theorem scanFieldsAux_ws : ∀ (fuel : Nat) (l : List Char),
    (∀ c ∈ l, isJsWS c = true) → scanFieldsAux fuel l = [] := by
  intro fuel
  induction fuel with
  | zero => intro l _; rfl
  | succ n ih =>
    intro l h
    cases l with
    | nil => rfl
    | cons c cs =>
      have hw : isWordC c = false :=
        isJsWS_not_isWordC (h c (List.mem_cons_self c cs))
      have hm : matchFieldAt (c :: cs) = none := by
        unfold matchFieldAt
        simp [hw]
      simp only [scanFieldsAux, hm]
      exact ih cs (fun d hd => h d (List.mem_cons_of_mem c hd))

theorem recordGet_set_self (m : List (String × Nat)) (k : String) (v : Nat) :
    recordGet (recordSet m k v) k = some v := by
  unfold recordSet recordGet
  by_cases h : m.any (fun p => p.1 == k) = true
  · simp only [h, if_true]
    induction m with
    | nil => simp at h
    | cons p ps ih =>
      by_cases hp : p.1 == k
      · simp [List.find?, hp]
      · have hps : ps.any (fun q => q.1 == k) = true := by
          rcases List.any_eq_true.mp h with ⟨q, hq, hq2⟩
          rcases List.mem_cons.mp hq with h1 | h1
          · exact absurd (h1 ▸ hq2) (by simp [hp])
          · exact List.any_eq_true.mpr ⟨q, h1, hq2⟩
        simp only [List.map_cons, List.find?]
        rw [if_neg (by simp [hp])]
        simp only [Bool.not_eq_true] at hp
        simp only [hp, Bool.false_eq_true, if_false]
        exact ih hps
  · simp only [h, Bool.false_eq_true, if_false]
    induction m with
    | nil => simp [List.find?]
    | cons p ps ih =>
      have hp : (p.1 == k) = false := by
        cases hpk : p.1 == k
        · rfl
        · exact absurd (List.any_eq_true.mpr ⟨p, List.mem_cons_self p ps, hpk⟩) h
      have hps : ¬ ps.any (fun q => q.1 == k) = true := by
        intro hx
        rcases List.any_eq_true.mp hx with ⟨q, hq, hq2⟩
        exact h (List.any_eq_true.mpr ⟨q, List.mem_cons_of_mem p hq, hq2⟩)
      simp only [List.cons_append, List.find?, hp]
      exact ih hps

theorem overwrite_map_id {ps : List (String × Nat)} {k : String} {v : Nat}
    (h : ¬ ps.any (fun q => q.1 == k) = true) :
    ps.map (fun p => if (p.1 == k) = true then (k, v) else p) = ps := by
  induction ps with
  | nil => rfl
  | cons p ps ih =>
    have hp : (p.1 == k) = false := by
      cases hpk : p.1 == k
      · rfl
      · exact absurd (List.any_eq_true.mpr ⟨p, List.mem_cons_self p ps, hpk⟩) h
    have hps : ¬ ps.any (fun q => q.1 == k) = true := fun hx => by
      rcases List.any_eq_true.mp hx with ⟨q, hq, hq2⟩
      exact h (List.any_eq_true.mpr ⟨q, List.mem_cons_of_mem p hq, hq2⟩)
    simp only [List.map_cons]
    rw [if_neg (by simp [hp]), ih hps]

theorem recordGet_set_other (m : List (String × Nat)) (k k' : String) (v : Nat)
    (h : k' ≠ k) : recordGet (recordSet m k v) k' = recordGet m k' := by
  unfold recordSet recordGet
  by_cases ha : m.any (fun p => p.1 == k) = true
  · simp only [ha, if_true]
    induction m with
    | nil => simp
    | cons p ps ih =>
      by_cases hp : p.1 == k
      · have hk : p.1 = k := by simpa using hp
        simp only [List.map_cons, hp, if_true, List.find?]
        have h1 : (k == k') = false := by
          simp only [beq_eq_false_iff_ne]; exact fun hk2 => h hk2.symm
        have h2 : (p.1 == k') = false := by
          simp only [beq_eq_false_iff_ne, hk]; exact fun hk2 => h hk2.symm
        rw [h1, h2]
        by_cases hps : ps.any (fun q => q.1 == k) = true
        · exact ih hps
        · rw [overwrite_map_id hps]
      · simp only [List.map_cons, hp, Bool.false_eq_true, if_false, List.find?]
        cases hq : p.1 == k'
        · by_cases hps : ps.any (fun q => q.1 == k) = true
          · exact ih hps
          · rw [overwrite_map_id hps]
        · rfl
  · simp only [ha, Bool.false_eq_true, if_false]
    induction m with
    | nil =>
      have hkk : (k == k') = false := by
        simp only [beq_eq_false_iff_ne]
        exact fun e => h e.symm
      simp [List.find?, hkk]
    | cons p ps ih =>
      have hps : ¬ ps.any (fun q => q.1 == k) = true := by
        intro hx
        rcases List.any_eq_true.mp hx with ⟨q, hq, hq2⟩
        exact ha (List.any_eq_true.mpr ⟨q, List.mem_cons_of_mem p hq, hq2⟩)
      simp only [List.cons_append, List.find?]
      cases hq : p.1 == k'
      · exact ih hps
      · rfl

theorem recordGet_foldl_not_mem (rs : List RawMethod) (k : String) :
    ∀ init : List (String × Nat),
    (∀ r ∈ rs, (⟨r.name⟩ : String) ≠ k) →
    recordGet (rs.foldl (fun m r => recordSet m ⟨r.name⟩ r.opcode) init) k =
      recordGet init k := by
  induction rs with
  | nil => intro init _; rfl
  | cons r rs ih =>
    intro init h
    simp only [List.foldl_cons]
    rw [ih _ (fun q hq => h q (List.mem_cons_of_mem r hq))]
    exact recordGet_set_other init ⟨r.name⟩ k r.opcode
      (Ne.symm (h r (List.mem_cons_self r rs)))

/-! ## Claim C6: the end-to-end extraction example -/

/-- C6: for every source text containing exactly one method marker, with
opcode 0, no returns annotation, variant name `Initialize`, and whose field
block scans to the single field `owner : Address`, `parseABI` returns
exactly one method `{opcode 0, name "Initialize", inputs [owner : Address],
outputs []}` and the opcode record `{"Initialize": 0}`. -/
theorem C6_extract_example (s : String) (b : List Char)
    (hm : scanMethods s.data =
      [{ opcode := 0, rets := none, name := "Initialize".data,
         fields := some b }])
    (hf : scanFields b = [("owner".data, "Address".data)]) :
    (parseABI s).methods =
      [{ opcode := 0, name := "Initialize",
         inputs := [{ name := "owner", type := "Address" }],
         outputs := [] }] ∧
    (parseABI s).opcodes = [("Initialize", 0)] := by
  have hb : (jsTrim b).isEmpty = false := by
    cases hjb : (jsTrim b).isEmpty
    · rfl
    · exfalso
      have hnil : jsTrim b = [] := List.isEmpty_iff.mp hjb
      have : scanFields b = [] := scanFieldsAux_ws _ b (trim_nil_all hnil)
      rw [hf] at this
      cases this
  constructor
  · rw [parseABI_methods, hm]
    simp only [List.map_cons, List.map_nil]
    unfold toMethod
    simp only [hf, hb, Bool.false_eq_true, if_false, List.map_cons,
      List.map_nil]
    decide
  · rw [parseABI_opcodes, hm]
    rfl

/-- C6 witness: the theorem applied at a concrete source text. -/
theorem C6_extract_example_witness :
    (parseABI "#[opcode(0)]\nInitialize \x7b owner: Address \x7d").methods =
      [{ opcode := 0, name := "Initialize",
         inputs := [{ name := "owner", type := "Address" }],
         outputs := [] }] ∧
    (parseABI "#[opcode(0)]\nInitialize \x7b owner: Address \x7d").opcodes =
      [("Initialize", 0)] :=
  C6_extract_example _ " owner: Address ".data (by decide) (by decide)

/-! ## Claim C7: the opcode-record invariant -/

/-- C7 counterexample: with two markers sharing the variant name `Foo`
(opcodes 1 and 2), the record maps `Foo` to the last opcode 2, so the first
extracted method `m` has `opcodes[m.name] = 2 ≠ 1 = m.opcode`: the invariant
does not hold for every extracted method when names repeat. -/
theorem C7_counterexample :
    ¬ (∀ m ∈ (parseABI "#[opcode(1)] Foo #[opcode(2)] Foo").methods,
        recordGet (parseABI "#[opcode(1)] Foo #[opcode(2)] Foo").opcodes
          m.name = some m.opcode) := by
  decide

/-- C7 (amended): `opcodes[m.name] == m.opcode` holds for every extracted
method that is the last marker carrying its variant name — in particular for
all methods whenever variant names are pairwise distinct; several markers
may share an opcode value with distinct names without affecting it.  For an
earlier marker whose name is reused later, the record holds the last
marker's opcode instead. -/
theorem C7_amended (s : String) (pre post : List RawMethod) (r : RawMethod)
    (hsplit : scanMethods s.data = pre ++ r :: post)
    (hlast : ∀ r2 ∈ post, (⟨r2.name⟩ : String) ≠ (⟨r.name⟩ : String)) :
    toMethod r ∈ (parseABI s).methods ∧
    recordGet (parseABI s).opcodes (toMethod r).name =
      some (toMethod r).opcode := by
  constructor
  · rw [parseABI_methods, hsplit]
    exact List.mem_map_of_mem toMethod
      (List.mem_append.mpr (Or.inr (List.mem_cons_self r post)))
  · rw [parseABI_opcodes, hsplit]
    rw [List.foldl_append, List.foldl_cons]
    have hname : (toMethod r).name = (⟨r.name⟩ : String) := rfl
    have hop : (toMethod r).opcode = r.opcode := rfl
    rw [hname, hop,
      recordGet_foldl_not_mem post (⟨r.name⟩ : String) _ hlast]
    exact recordGet_set_self _ _ _

/-- C7 witness: the amended theorem applied to the duplicate-name source;
the second `Foo` marker is the last with its name and satisfies the
invariant. -/
theorem C7_amended_witness :
    toMethod { opcode := 2, rets := none, name := "Foo".data, fields := none }
      ∈ (parseABI "#[opcode(1)] Foo #[opcode(2)] Foo").methods ∧
    recordGet (parseABI "#[opcode(1)] Foo #[opcode(2)] Foo").opcodes
      "Foo" = some 2 :=
  C7_amended "#[opcode(1)] Foo #[opcode(2)] Foo"
    [{ opcode := 1, rets := none, name := "Foo".data, fields := none }] []
    { opcode := 2, rets := none, name := "Foo".data, fields := none }
    (by decide) (by intro r2 h; cases h)

/-! ## Claim C8: the extractor never fails and returns the placeholder -/

/-- C8: `parseABI` is a total function (it cannot raise), and on any source
text with zero method-marker matches, zero `pub struct` matches, and zero
storage-keyword matches it returns the AbiDescription with empty methods,
empty opcode record, empty storage, and the placeholder name
`"UnknownContract"`. -/
theorem C8_empty_source (s : String)
    (hm : scanMethods s.data = [])
    (hst : scanStructs s.data = [])
    (hsg : scanStorage s.data = []) :
    parseABI s = { name := "UnknownContract", version := "1.0.0",
                   methods := [], storage := [], opcodes := [] } := by
  unfold parseABI
  rw [hm, hst, hsg]
  rfl

/-- C8 witness: the theorem applied at a concrete marker-free source. -/
theorem C8_empty_source_witness :
    parseABI "fn main() \x7b println!(\"hi\") \x7d" =
      { name := "UnknownContract", version := "1.0.0",
        methods := [], storage := [], opcodes := [] } :=
  C8_empty_source _ (by decide) (by decide) (by decide)

/-! ## Claim C10: fixed version, output arity, storage type -/

/-- C10: for every input source text, the AbiDescription has version exactly
`"1.0.0"`, every method's outputs list has length at most 1, and every
storage slot has type exactly `"Vec<u8>"`. -/
theorem C10_shape_invariants (s : String) :
    (parseABI s).version = "1.0.0" ∧
    (∀ m ∈ (parseABI s).methods, m.outputs.length ≤ 1) ∧
    (∀ st ∈ (parseABI s).storage, st.type = "Vec<u8>") := by
  refine ⟨rfl, ?_, ?_⟩
  · intro m hm
    rw [parseABI_methods] at hm
    obtain ⟨r, _, hr⟩ := List.mem_map.mp hm
    subst hr
    unfold toMethod
    cases r.rets <;> simp
  · intro st hst
    rw [parseABI_storage] at hst
    obtain ⟨k, _, hk⟩ := List.mem_map.mp hst
    subst hk
    rfl

/-- C10 witness: the theorem applied at a concrete source with a returning
method and a storage slot. -/
theorem C10_shape_invariants_witness :
    (parseABI "#[opcode(1)]\n#[returns(u128)]\nGetValue StoragePointer::from_keyword(\"/v\")").version = "1.0.0" ∧
    ({ opcode := 1, name := "GetValue", inputs := [],
       outputs := ["u128"] } : AlkanesMethod).outputs.length ≤ 1 ∧
    ({ key := "/v", type := "Vec<u8>" } : StorageKey).type = "Vec<u8>" :=
  ⟨(C10_shape_invariants _).1,
   (C10_shape_invariants "#[opcode(1)]\n#[returns(u128)]\nGetValue StoragePointer::from_keyword(\"/v\")").2.1 _ (by decide),
   (C10_shape_invariants "#[opcode(1)]\n#[returns(u128)]\nGetValue StoragePointer::from_keyword(\"/v\")").2.2 _ (by decide)⟩

/-! ## The artifact-cache compile pipeline
(`AlkanesCompiler.compile`, src/unnamed/part_001 lines 311-377, second
revision: artifact cache + per-hash target dir + hash-suffixed crate name)

Paths are modeled as component lists (`path.join` appends a component) and
the file system as an association list with most recent write first.  The
`cargo` subprocess is an oracle: an exit code plus the files it writes under
its `CARGO_TARGET_DIR`. -/

/-- A filesystem path, as components. -/
abbrev BPath := List String

/-- File contents in the model: raw bytes, the serialized ABI side-car
(`JSON.stringify`/`JSON.parse` round-trip faithfully), or template text. -/
inductive FData
  | bytes (b : List Nat)
  | abiFile (a : AlkanesABI)
  | text (t : String)
  deriving DecidableEq, Repr

/-- File-system model. -/
abbrev FSModel := List (BPath × FData)

/-- `fs.writeFile`. -/
def fsWrite (fs : FSModel) (p : BPath) (d : FData) : FSModel := (p, d) :: fs

/-- `fs.readFile` / `fs.access`: the most recent write at `p`, if any. -/
def fsRead (fs : FSModel) (p : BPath) : Option FData :=
  (fs.find? (fun e => e.1 == p)).map (fun e => e.2)

/-- `fs.rm(dir, { recursive: true, force: true })`. -/
def fsRemoveDir (fs : FSModel) (dir : BPath) : FSModel :=
  fs.filter (fun e => !(dir.isPrefixOf e.1))

/-- Outcome of one `cargo build` subprocess: exit code and the files it
writes (all under its per-hash `CARGO_TARGET_DIR`). -/
structure CargoOutcome where
  exitCode : Nat
  outputs : List (BPath × FData)
  deriving DecidableEq, Repr

/-- Apply the subprocess's file writes. -/
def applyCargo (fs : FSModel) (c : CargoOutcome) : FSModel :=
  c.outputs.foldl (fun a e => fsWrite a e.1 e.2) fs

/-- `BASE_DIR = "/tmp/builds"` (src/unnamed/part_001 line 221). -/
def BUILDS_DIR : BPath := ["", "tmp", "builds"]

/-- `ARTIFACTS_DIR = "/mnt/cache/artifacts"` (line 222). -/
def ARTIFACTS_DIR : BPath := ["", "mnt", "cache", "artifacts"]

/-- `CARGO_TARGET_ROOT = "/mnt/cache/target"` (line 223). -/
def TARGET_ROOT : BPath := ["", "mnt", "cache", "target"]

/-- The per-source build workspace `path.join(baseDir, "build_" + hash)`. -/
def tempDirPath (s : String) : BPath :=
  BUILDS_DIR ++ ["build_" ++ stableHash s]

/-- The per-hash compiler target cache `path.join(CARGO_TARGET_ROOT, ...)`. -/
def targetDirPath (s : String) : BPath :=
  TARGET_ROOT ++ ["build_" ++ stableHash s]

/-- The committed artifact `${hash}.wasm` in the artifact cache. -/
def wasmOutPath (s : String) : BPath :=
  ARTIFACTS_DIR ++ [stableHash s ++ ".wasm"]

/-- The committed ABI side-car `${hash}.abi.json`. -/
def abiOutPath (s : String) : BPath :=
  ARTIFACTS_DIR ++ [stableHash s ++ ".abi.json"]

/-- The expected toolchain output
`targetDir/wasm32-unknown-unknown/release/${crateName}.wasm`. -/
def wasmBuildPath (s : String) : BPath :=
  targetDirPath s ++ ["wasm32-unknown-unknown", "release",
    "alkanes_contract_" ++ stableHash s ++ ".wasm"]

/-- `createProject`: write the Cargo manifest (template with the
hash-suffixed crate name) and the submitted source. -/
def projectFS (fs : FSModel) (s : String) : FSModel :=
  fsWrite (fsWrite fs (tempDirPath s ++ ["Cargo.toml"])
      (.text ("alkanes_contract_" ++ stableHash s)))
    (tempDirPath s ++ ["src", "lib.rs"]) (.text s)

/-- Failure modes of one compile invocation. -/
inductive CompileErr
  | cargoFailed (code : Nat)
  | missingArtifact
  | badCacheEntry
  deriving DecidableEq, Repr

/-- A successful compile result `{ wasmBuffer, abi }`. -/
structure CompileOk where
  wasm : List Nat
  abi : AlkanesABI
  deriving DecidableEq, Repr

/-- `AlkanesCompiler.compile` (src/unnamed/part_001 lines 311-377) for one
invocation: artifact-cache check (with ABI backfill), then — under the build
lock, whose in-lock double check re-reads the same state for a single
caller — project materialization, the toolchain invocation, artifact
read-back, ABI extraction, commit of both artifact files, and workspace
cleanup, which the source performs only on this success path. -/
def compileModel (cleanupAfter : Bool) (s : String) (fs : FSModel)
    (cargo : CargoOutcome) : Except CompileErr CompileOk × FSModel :=
  match fsRead fs (wasmOutPath s) with
  | some (.bytes wb) =>
    (match fsRead fs (abiOutPath s) with
     | some (.abiFile a) => (.ok ⟨wb, a⟩, fs)
     | some _ => (.error .badCacheEntry, fs)
     | none =>
       let a := parseABI s
       (.ok ⟨wb, a⟩, fsWrite fs (abiOutPath s) (.abiFile a)))
  | some _ => (.error .badCacheEntry, fs)
  | none =>
    let fs1 := projectFS fs s
    let fs2 := applyCargo fs1 cargo
    if cargo.exitCode ≠ 0 then (.error (.cargoFailed cargo.exitCode), fs2)
    else
      match fsRead fs2 (wasmBuildPath s) with
      | some (.bytes wb) =>
        let a := parseABI s
        let fs3 := fsWrite (fsWrite fs2 (wasmOutPath s) (.bytes wb))
          (abiOutPath s) (.abiFile a)
        let fs4 := if cleanupAfter then fsRemoveDir fs3 (tempDirPath s)
          else fs3
        (.ok ⟨wb, a⟩, fs4)
      | _ => (.error .missingArtifact, fs2)

/-! ## File-system lemmas -/

theorem fsRead_write_self (fs : FSModel) (p : BPath) (d : FData) :
    fsRead (fsWrite fs p d) p = some d := by
  unfold fsWrite fsRead
  rw [List.find?_cons_of_pos _ (by simp)]
  rfl

theorem fsRead_write_ne {fs : FSModel} {p q : BPath} {d : FData}
    (h : p ≠ q) : fsRead (fsWrite fs p d) q = fsRead fs q := by
  unfold fsWrite fsRead
  rw [List.find?_cons_of_neg _ (by simp [h])]

theorem fsRead_foldl_write_ne {q : BPath} :
    ∀ (outs : List (BPath × FData)) (fs : FSModel),
    (∀ e ∈ outs, e.1 ≠ q) →
    fsRead (outs.foldl (fun a e => fsWrite a e.1 e.2) fs) q = fsRead fs q := by
  intro outs
  induction outs with
  | nil => intro fs _; rfl
  | cons e outs ih =>
    intro fs h
    simp only [List.foldl_cons]
    rw [ih _ (fun e2 h2 => h e2 (List.mem_cons_of_mem e h2))]
    exact fsRead_write_ne (h e (List.mem_cons_self e outs))

theorem fsRead_applyCargo_ne {c : CargoOutcome} {q : BPath}
    (h : ∀ e ∈ c.outputs, e.1 ≠ q) (fs : FSModel) :
    fsRead (applyCargo fs c) q = fsRead fs q :=
  fsRead_foldl_write_ne c.outputs fs h

theorem isPrefixOf_exists {l p : BPath} (h : l.isPrefixOf p = true) :
    ∃ t, p = l ++ t := by
  induction l generalizing p with
  | nil => exact ⟨p, rfl⟩
  | cons a l ih =>
    cases p with
    | nil => simp [List.isPrefixOf] at h
    | cons b p =>
      simp only [List.isPrefixOf, Bool.and_eq_true, beq_iff_eq] at h
      obtain ⟨h1, h2⟩ := h
      obtain ⟨t, ht⟩ := ih h2
      subst h1
      exact ⟨t, by rw [List.cons_append, ← ht]⟩

theorem fsRead_removeDir_under {dir q : BPath}
    (h : dir.isPrefixOf q = true) :
    ∀ fs : FSModel, fsRead (fsRemoveDir fs dir) q = none := by
  intro fs
  induction fs with
  | nil => rfl
  | cons e fs ih =>
    unfold fsRemoveDir at ih ⊢
    by_cases he : dir.isPrefixOf e.1 = true
    · rw [List.filter_cons_of_neg (by simp [he])]
      exact ih
    · rw [List.filter_cons_of_pos (by simp [he])]
      have hne : (e.1 == q) = false := by
        cases hq : e.1 == q
        · rfl
        · have heq : e.1 = q := by simpa using hq
          exact absurd (heq ▸ h) he
      unfold fsRead
      rw [List.find?_cons_of_neg _ (by simp [hne])]
      exact ih

theorem fsRead_removeDir_other {dir q : BPath}
    (h : dir.isPrefixOf q = false) :
    ∀ fs : FSModel, fsRead (fsRemoveDir fs dir) q = fsRead fs q := by
  intro fs
  induction fs with
  | nil => rfl
  | cons e fs ih =>
    show fsRead ((e :: fs).filter (fun e => !(dir.isPrefixOf e.1))) q =
      fsRead (e :: fs) q
    by_cases he : dir.isPrefixOf e.1 = true
    · have hne : (e.1 == q) = false := by
        cases hq : e.1 == q
        · rfl
        · have heq : e.1 = q := by simpa using hq
          rw [heq] at he
          rw [he] at h
          cases h
      rw [List.filter_cons_of_neg (by simp [he])]
      show fsRead (fsRemoveDir fs dir) q = fsRead (e :: fs) q
      rw [ih]
      unfold fsRead
      rw [List.find?_cons_of_neg _ (by simp [hne])]
    · rw [List.filter_cons_of_pos (by simp [he])]
      show fsRead (e :: fsRemoveDir fs dir) q = fsRead (e :: fs) q
      unfold fsRead
      cases hq : e.1 == q
      · rw [List.find?_cons_of_neg _ (by simp [hq]),
          List.find?_cons_of_neg _ (by simp [hq])]
        exact ih
      · rw [List.find?_cons_of_pos _ (by simp [hq]),
          List.find?_cons_of_pos _ (by simp [hq])]

/-! ## Path disjointness -/

theorem tempfile_ne_artifact (s : String) (suffix : BPath) (f : String) :
    tempDirPath s ++ suffix ≠ ARTIFACTS_DIR ++ [f] := by
  intro h
  simp [tempDirPath, BUILDS_DIR, ARTIFACTS_DIR] at h

theorem target_out_ne_artifact {s : String} {p : BPath}
    (h : (targetDirPath s).isPrefixOf p = true) (f : String) :
    p ≠ ARTIFACTS_DIR ++ [f] := by
  obtain ⟨t, ht⟩ := isPrefixOf_exists h
  subst ht
  intro he
  simp [targetDirPath, TARGET_ROOT, ARTIFACTS_DIR] at he

theorem tempDir_not_pre_target (s : String) (t : BPath) :
    (tempDirPath s).isPrefixOf (targetDirPath s ++ t) = false := by
  simp [tempDirPath, targetDirPath, BUILDS_DIR, TARGET_ROOT, List.isPrefixOf]

theorem tempDir_not_pre_artifact (s f : String) :
    (tempDirPath s).isPrefixOf (ARTIFACTS_DIR ++ [f]) = false := by
  simp [tempDirPath, BUILDS_DIR, ARTIFACTS_DIR, List.isPrefixOf]

theorem wasmOut_ne_abiOut (s : String) : wasmOutPath s ≠ abiOutPath s := by
  intro h
  have h1 : stableHash s ++ ".wasm" = stableHash s ++ ".abi.json" := by
    simpa [wasmOutPath, abiOutPath, ARTIFACTS_DIR] using h
  have h2 := congrArg String.length h1
  rw [String.length_append, String.length_append] at h2
  have h3 : (".wasm" : String).length = 5 := rfl
  have h4 : (".abi.json" : String).length = 9 := rfl
  omega

/-! ## Claim C3: failed builds commit nothing -/

/-- C3: if the toolchain exits non-zero, or the expected output artifact is
absent after it exits, the compile invocation fails (the shared build result
delivered to every caller attached to this build is that failure), and the
artifact cache for the key is untouched: the `.wasm` entry is still absent
and the `.abi.json` entry is unchanged.  The toolchain oracle is assumed to
write only under its per-hash `CARGO_TARGET_DIR`. -/
theorem C3_failure_no_commit (cleanup : Bool) (s : String) (fs : FSModel)
    (cargo : CargoOutcome)
    (hmiss : fsRead fs (wasmOutPath s) = none)
    (hout : ∀ e ∈ cargo.outputs, (targetDirPath s).isPrefixOf e.1 = true)
    (hfail : cargo.exitCode ≠ 0 ∨
      fsRead (applyCargo (projectFS fs s) cargo) (wasmBuildPath s) = none) :
    (∃ err, (compileModel cleanup s fs cargo).1 = .error err) ∧
    fsRead (compileModel cleanup s fs cargo).2 (wasmOutPath s) = none ∧
    fsRead (compileModel cleanup s fs cargo).2 (abiOutPath s) =
      fsRead fs (abiOutPath s) := by
  have hartifact : ∀ f : String,
      fsRead (applyCargo (projectFS fs s) cargo) (ARTIFACTS_DIR ++ [f]) =
        fsRead fs (ARTIFACTS_DIR ++ [f]) := by
    intro f
    rw [fsRead_applyCargo_ne
      (fun e he => target_out_ne_artifact (hout e he) f) _]
    unfold projectFS
    rw [fsRead_write_ne (tempfile_ne_artifact s ["src", "lib.rs"] f),
      fsRead_write_ne (tempfile_ne_artifact s ["Cargo.toml"] f)]
  have hw2 : fsRead (applyCargo (projectFS fs s) cargo) (wasmOutPath s) =
      fsRead fs (wasmOutPath s) := hartifact (stableHash s ++ ".wasm")
  have ha2 : fsRead (applyCargo (projectFS fs s) cargo) (abiOutPath s) =
      fsRead fs (abiOutPath s) := hartifact (stableHash s ++ ".abi.json")
  by_cases hexit : cargo.exitCode ≠ 0
  · have hred : compileModel cleanup s fs cargo =
        (.error (.cargoFailed cargo.exitCode),
         applyCargo (projectFS fs s) cargo) := by
      simp only [compileModel, hmiss]
      rw [if_pos hexit]
    rw [hred]
    exact ⟨⟨_, rfl⟩, hw2.trans hmiss, ha2⟩
  · have hmiss2 : fsRead (applyCargo (projectFS fs s) cargo)
        (wasmBuildPath s) = none := by
      rcases hfail with h | h
      · exact absurd h hexit
      · exact h
    have hred : compileModel cleanup s fs cargo =
        (.error .missingArtifact, applyCargo (projectFS fs s) cargo) := by
      simp only [compileModel, hmiss]
      rw [if_neg hexit, hmiss2]
    rw [hred]
    exact ⟨⟨_, rfl⟩, hw2.trans hmiss, ha2⟩

/-- C3 witness: a cache-miss invocation whose toolchain exits 101 fails and
leaves the artifact cache empty for the key. -/
theorem C3_failure_no_commit_witness :
    (∃ err, (compileModel true "x" [] ⟨101, []⟩).1 = .error err) ∧
    fsRead (compileModel true "x" [] ⟨101, []⟩).2 (wasmOutPath "x") = none ∧
    fsRead (compileModel true "x" [] ⟨101, []⟩).2 (abiOutPath "x") =
      fsRead [] (abiOutPath "x") :=
  C3_failure_no_commit true "x" [] ⟨101, []⟩ rfl
    (fun e he => absurd he (by simp)) (Or.inl (by decide))

/-! ## Claim C9: workspace cleanup and the frame of a build attempt -/

/-- C9 counterexample: with cleanup configured on and a failing toolchain
invocation, the workspace is NOT removed: the attempt ends in failure and
the materialized `Cargo.toml` is still present under the build workspace,
because the artifact-cache compiler runs its `fs.rm(tempDir)` only on the
success path (src/unnamed/part_001 lines 370-373; no `finally`). -/
theorem C9_counterexample :
    (compileModel true "x" [] ⟨101, []⟩).1 =
      .error (.cargoFailed 101) ∧
    fsRead (compileModel true "x" [] ⟨101, []⟩).2
      (tempDirPath "x" ++ ["Cargo.toml"]) =
      some (.text ("alkanes_contract_" ++ stableHash "x")) := by
  exact ⟨rfl, rfl⟩

/-- C9 (amended): after a SUCCESSFUL build attempt with cleanup on, the
build workspace is removed (every path under `tempDir` reads as absent),
while the per-hash compiler target-cache directory is untouched by the
commit-and-cleanup step and the committed artifact is present; after a
failed attempt the workspace is left in place (see the counterexample; only
the earlier `finally`-based revision, src/src/compiler.ts lines 113-118,
removed it regardless of outcome). -/
theorem C9_amended_cleanup_frame (s : String) (fs : FSModel)
    (cargo : CargoOutcome) (wb : List Nat)
    (hmiss : fsRead fs (wasmOutPath s) = none)
    (hexit : cargo.exitCode = 0)
    (hwasm : fsRead (applyCargo (projectFS fs s) cargo) (wasmBuildPath s) =
      some (.bytes wb)) :
    (compileModel true s fs cargo).1 = .ok ⟨wb, parseABI s⟩ ∧
    (∀ q, (tempDirPath s).isPrefixOf q = true →
      fsRead (compileModel true s fs cargo).2 q = none) ∧
    (∀ q, (targetDirPath s).isPrefixOf q = true →
      fsRead (compileModel true s fs cargo).2 q =
        fsRead (applyCargo (projectFS fs s) cargo) q) ∧
    fsRead (compileModel true s fs cargo).2 (wasmOutPath s) =
      some (.bytes wb) := by
  have hred : compileModel true s fs cargo =
      (.ok ⟨wb, parseABI s⟩,
        fsRemoveDir
          (fsWrite (fsWrite (applyCargo (projectFS fs s) cargo)
            (wasmOutPath s) (.bytes wb)) (abiOutPath s)
            (.abiFile (parseABI s)))
          (tempDirPath s)) := by
    simp only [compileModel, hmiss]
    rw [if_neg (by omega), hwasm]
    rfl
  rw [hred]
  refine ⟨rfl, ?_, ?_, ?_⟩
  · intro q hq
    exact fsRead_removeDir_under hq _
  · intro q hq
    obtain ⟨t, ht⟩ := isPrefixOf_exists hq
    have hnot : (tempDirPath s).isPrefixOf q = false := by
      rw [ht]; exact tempDir_not_pre_target s t
    rw [fsRead_removeDir_other hnot]
    have hne1 : abiOutPath s ≠ q :=
      Ne.symm (target_out_ne_artifact hq (stableHash s ++ ".abi.json"))
    have hne2 : wasmOutPath s ≠ q :=
      Ne.symm (target_out_ne_artifact hq (stableHash s ++ ".wasm"))
    rw [fsRead_write_ne hne1, fsRead_write_ne hne2]
  · have hnot : (tempDirPath s).isPrefixOf (wasmOutPath s) = false :=
      tempDir_not_pre_artifact s (stableHash s ++ ".wasm")
    rw [fsRead_removeDir_other hnot]
    have hne : abiOutPath s ≠ wasmOutPath s := Ne.symm (wasmOut_ne_abiOut s)
    rw [fsRead_write_ne hne]
    exact fsRead_write_self _ _ _

/-- C9 witness: the amended theorem applied at a concrete successful build. -/
theorem C9_amended_cleanup_frame_witness :
    (compileModel true "x" []
        ⟨0, [(wasmBuildPath "x", .bytes [0, 97, 115, 109])]⟩).1 =
      .ok ⟨[0, 97, 115, 109], parseABI "x"⟩ ∧
    fsRead (compileModel true "x" []
        ⟨0, [(wasmBuildPath "x", .bytes [0, 97, 115, 109])]⟩).2
      (tempDirPath "x" ++ ["Cargo.toml"]) = none ∧
    fsRead (compileModel true "x" []
        ⟨0, [(wasmBuildPath "x", .bytes [0, 97, 115, 109])]⟩).2
      (wasmOutPath "x") = some (.bytes [0, 97, 115, 109]) :=
  ⟨(C9_amended_cleanup_frame "x" [] _ [0, 97, 115, 109] rfl rfl
      (by decide)).1,
   (C9_amended_cleanup_frame "x" [] _ [0, 97, 115, 109] rfl rfl
      (by decide)).2.1 _ (by decide),
   (C9_amended_cleanup_frame "x" [] _ [0, 97, 115, 109] rfl rfl
      (by decide)).2.2.2⟩

/-! ## Claim C4: what the concurrency limiter wraps

`compileContract` (src/unnamed/part_001 lines 441-475) passes the WHOLE
per-request pipeline — `compiler.compile`, which begins with hashing and the
artifact-cache lookup (lines 315-336) — as the task given to `queue.add` on
the `PQueue({ concurrency: 2 })`.  The task lists below transcribe the
observable steps of that queued function in order. -/

/-- Observable steps of one queued compile request. -/
inductive BStep
  | hashKey
  | cacheCheck
  | lockAcquire
  | cargoStart
  | cargoDone
  | readWasm
  | extractAbi
  | commit
  | finish
  deriving DecidableEq, Repr

/-- The queued task for a request whose key misses the artifact cache
(`queue.add` wraps all of these, src/unnamed/part_001 lines 442-454 with
compile lines 315-377). -/
def buildTaskSteps : List BStep :=
  [.hashKey, .cacheCheck, .lockAcquire, .cargoStart, .cargoDone, .readWasm,
   .extractAbi, .commit, .finish]

/-- The queued task for a request whose key already has a committed
artifact: hashing and the cache lookup still run inside the queued task
(lines 315-336 are inside the function passed to `queue.add`). -/
def hitTaskSteps : List BStep := [.hashKey, .cacheCheck, .finish]

/-- Modelled from the spec: the Concurrency Limiter of spec section 4.5
(the `p-queue` package is an external dependency, not among the repository
sources): at most `c` tasks run at once, waiting tasks are admitted in FIFO
order as slots free; each round every admitted task executes one step, and a
task leaves its slot when its last step has run. -/
def pqRun (c : Nat) : Nat → List (Nat × List BStep) → List (Nat × List BStep) →
    List (Nat × BStep)
  | 0, _, _ => []
  | fuel + 1, running, waiting =>
    let admitted := running ++ waiting.take (c - running.length)
    let waiting2 := waiting.drop (c - running.length)
    match admitted with
    | [] => []
    | _ =>
      let events := admitted.filterMap
        (fun e => e.2.head?.map (fun st => (e.1, st)))
      let running2 := admitted.filterMap (fun e =>
        match e.2 with
        | [] => none
        | [_] => none
        | _ :: t => some (e.1, t))
      events ++ pqRun c fuel running2 waiting2

/-- The trace of three requests submitted in order: two cache-miss builds,
then a request whose key has a committed artifact. -/
def traceHitBehindBuilds : List (Nat × BStep) :=
  pqRun 2 32 [] [(0, buildTaskSteps), (1, buildTaskSteps), (2, hitTaskSteps)]

/-- C4 counterexample: with both limiter slots held by in-flight builds, the
cache-hit request (task 2) performs no step — not even its cache lookup —
until both toolchain invocations have completed: every task-2 event comes
after `(0, cargoDone)` and `(1, cargoDone)` in the trace.  Cache hits do not
bypass queuing, refuting the claim that a call whose key has a committed
ArtifactRecord is never queued behind in-flight toolchain invocations. -/
theorem C4_counterexample :
    (traceHitBehindBuilds.takeWhile (fun e => decide (e.1 ≠ 2))).contains
      (0, BStep.cargoDone) = true ∧
    (traceHitBehindBuilds.takeWhile (fun e => decide (e.1 ≠ 2))).contains
      (1, BStep.cargoDone) = true ∧
    traceHitBehindBuilds.contains (2, BStep.cacheCheck) = true := by
  refine ⟨by decide, by decide, by decide⟩

/-- C4 (amended): the limiter wraps the entire compile call, not only the
toolchain invocation: the queued task begins with hashing followed by the
cache lookup and (for builds) includes ABI extraction and commit; hence a
cache-hit request submitted behind two in-flight builds executes entirely
after one of them finishes — its whole trace follows the two builds'
trace. -/
theorem C4_amended :
    hitTaskSteps.head? = some BStep.hashKey ∧
    hitTaskSteps.contains BStep.cacheCheck = true ∧
    buildTaskSteps.contains BStep.cacheCheck = true ∧
    buildTaskSteps.contains BStep.extractAbi = true ∧
    traceHitBehindBuilds =
      pqRun 2 32 [] [(0, buildTaskSteps), (1, buildTaskSteps)] ++
        hitTaskSteps.map (fun st => (2, st)) := by
  refine ⟨rfl, by decide, by decide, by decide, by decide⟩

/-! ## Claim C2: concurrent dedup through the build-lock registry

`withBuildLock` (src/unnamed/part_001 lines 239-252) keeps a process-wide
map from hash to the in-flight build promise: a caller that finds an entry
awaits it (attaching to the shared outcome); otherwise it starts `fn()`,
stores the promise, and the `finally` removes the entry when the build
settles.  The transition system below models the callers of one ContentKey
at the granularity of the code's await points: the cache check
(`fileExists`), the lock check (`has`/`fn()`/`set` are one synchronous
section), the in-lock double cache check, the cargo invocation (counted when
it starts, outcome from an oracle), and settlement (commit on success, then
lock removal).  A schedule is the sequence of caller indices that take
steps, covering the event-loop interleavings of the asynchronous calls. -/

/-- Control state of one caller of `compile` for the shared key. -/
inductive CallerSt
  | atCacheCheck
  | atLockCheck
  | atDoubleCheck (bid : Nat)
  | atCargo (bid : Nat) (inv : Nat)
  | attached (bid : Nat)
  | done (ok : Bool)
  deriving DecidableEq, Repr

/-- Shared state for one ContentKey: callers, the committed artifact flag,
the `buildLocks` entry, id and invocation counters, settled build outcomes,
and the oracle giving the outcome of each cargo invocation in order. -/
structure LockSt where
  callers : List CallerSt
  artifact : Bool
  lock : Option Nat
  nextBuild : Nat
  cargoCount : Nat
  results : List (Nat × Bool)
  oracle : List Bool
  deriving DecidableEq, Repr

/-- One step of caller `i` (no-op when the caller is done, or attached to a
build that has not settled). -/
def lockStep (g : LockSt) (i : Nat) : LockSt :=
  match g.callers.get? i with
  | none => g
  | some c =>
    match c with
    | .atCacheCheck =>
      if g.artifact then { g with callers := g.callers.set i (.done true) }
      else { g with callers := g.callers.set i .atLockCheck }
    | .atLockCheck =>
      match g.lock with
      | some b => { g with callers := g.callers.set i (.attached b) }
      | none =>
        { g with callers := g.callers.set i (.atDoubleCheck g.nextBuild),
                 lock := some g.nextBuild, nextBuild := g.nextBuild + 1 }
    | .atDoubleCheck b =>
      if g.artifact then
        { g with callers := g.callers.set i (.done true),
                 lock := none, results := (b, true) :: g.results }
      else
        { g with callers := g.callers.set i (.atCargo b g.cargoCount),
                 cargoCount := g.cargoCount + 1 }
    | .atCargo b inv =>
      let ok := g.oracle.getD inv false
      { g with callers := g.callers.set i (.done ok),
               lock := none,
               artifact := g.artifact || ok,
               results := (b, ok) :: g.results }
    | .attached b =>
      match g.results.find? (fun e => e.1 == b) with
      | some e => { g with callers := g.callers.set i (.done e.2) }
      | none => g
    | .done _ => g

/-- Run a schedule of caller steps. -/
def lockRun (g : LockSt) : List Nat → LockSt
  | [] => g
  | i :: sched => lockRun (lockStep g i) sched

/-- `n` fresh concurrent callers for one key with no committed artifact. -/
def initLockSt (n : Nat) (oracle : List Bool) : LockSt :=
  ⟨List.replicate n .atCacheCheck, false, none, 0, 0, [], oracle⟩

/-- The final state of the counterexample schedule: two callers, the first
cargo invocation fails, the second succeeds. -/
def cexLockFinal : LockSt :=
  lockRun (initLockSt 2 [false, true]) [0, 0, 0, 1, 0, 1, 1, 1]

/-- C2 counterexample: two concurrent `compile` calls for one key while no
ArtifactRecord exists (both perform their cache check, a miss, before any
commit; caller 1 checks while caller 0's build is in flight).  Caller 1's
lock check lands after caller 0's failed build has deleted the lock entry,
so caller 1 starts a SECOND toolchain invocation — `cargoCount = 2`, not
exactly one — and the two callers receive different outcomes (caller 0 the
failure, caller 1 the success of the retriggered build). -/
theorem C2_counterexample :
    cexLockFinal.cargoCount = 2 ∧
    cexLockFinal.callers = [.done false, .done true] := by
  exact ⟨rfl, rfl⟩

/-- Callers currently inside the locked build section. -/
def isBuilding : CallerSt → Bool
  | .atDoubleCheck _ => true
  | .atCargo _ _ => true
  | _ => false

/-- Number of callers inside the locked build section. -/
def buildingCount (g : LockSt) : Nat := g.callers.countP (fun c => isBuilding c)

/-- The lock discipline invariant: the `buildLocks` entry exists exactly
while one caller is inside the locked build section. -/
def lockInv (g : LockSt) : Prop :=
  buildingCount g = (match g.lock with | some _ => 1 | none => 0)

theorem countP_set_of_get {α : Type} {l : List α} {i : Nat} {c : α}
    (h : l.get? i = some c) (x : α) (p : α → Bool) :
    (l.set i x).countP p + (if p c then 1 else 0) =
      l.countP p + (if p x then 1 else 0) := by
  induction l generalizing i with
  | nil => simp at h
  | cons a l ih =>
    cases i with
    | zero =>
      simp only [List.get?] at h
      injection h with h
      subst h
      simp only [List.set, List.countP_cons]
      omega
    | succ i =>
      simp only [List.get?] at h
      simp only [List.set, List.countP_cons]
      have h2 := ih h
      omega

theorem ib_cache : (if isBuilding .atCacheCheck = true then 1 else 0) = 0 := rfl

theorem ib_lockCheck : (if isBuilding .atLockCheck = true then 1 else 0) = 0 := rfl

theorem ib_done (ok : Bool) :
    (if isBuilding (.done ok) = true then 1 else 0) = 0 := rfl

theorem ib_attached (b : Nat) :
    (if isBuilding (.attached b) = true then 1 else 0) = 0 := rfl

theorem ib_double (b : Nat) :
    (if isBuilding (.atDoubleCheck b) = true then 1 else 0) = 1 := rfl

theorem ib_cargo (b inv : Nat) :
    (if isBuilding (.atCargo b inv) = true then 1 else 0) = 1 := rfl

theorem lockStep_preserves_inv {g : LockSt} (hg : lockInv g) (i : Nat) :
    lockInv (lockStep g i) := by
  have hgU : g.callers.countP (fun c => isBuilding c) =
      (match g.lock with | some _ => 1 | none => 0) := hg
  cases hgi : g.callers.get? i with
  | none =>
    have hstep : lockStep g i = g := by unfold lockStep; rw [hgi]
    rw [hstep]; exact hg
  | some c =>
    have hmem : c ∈ g.callers := List.get?_mem hgi
    cases c with
    | atCacheCheck =>
      by_cases ha : g.artifact = true
      · have hstep : lockStep g i =
            { g with callers := g.callers.set i (.done true) } := by
          unfold lockStep; rw [hgi]; simp [ha]
        rw [hstep]
        show (g.callers.set i (.done true)).countP (fun c => isBuilding c) =
          (match g.lock with | some _ => 1 | none => 0)
        have h1 := countP_set_of_get hgi (.done true) (fun c => isBuilding c)
        rw [ib_cache, ib_done] at h1
        have h1' : (g.callers.set i (.done true)).countP
            (fun c => isBuilding c) =
            g.callers.countP (fun c => isBuilding c) := by omega
        exact h1'.trans hgU
      · have hstep : lockStep g i =
            { g with callers := g.callers.set i .atLockCheck } := by
          unfold lockStep; rw [hgi]; simp [ha]
        rw [hstep]
        show (g.callers.set i .atLockCheck).countP (fun c => isBuilding c) =
          (match g.lock with | some _ => 1 | none => 0)
        have h1 := countP_set_of_get hgi .atLockCheck (fun c => isBuilding c)
        rw [ib_cache, ib_lockCheck] at h1
        have h1' : (g.callers.set i .atLockCheck).countP
            (fun c => isBuilding c) =
            g.callers.countP (fun c => isBuilding c) := by omega
        exact h1'.trans hgU
    | atLockCheck =>
      cases hl : g.lock with
      | some b =>
        have hstep : lockStep g i =
            { g with callers := g.callers.set i (.attached b) } := by
          unfold lockStep; rw [hgi]
          show (match g.lock with
            | some b => { g with callers := g.callers.set i (.attached b) }
            | none =>
              { g with callers := g.callers.set i (.atDoubleCheck g.nextBuild),
                       lock := some g.nextBuild,
                       nextBuild := g.nextBuild + 1 }) = _
          rw [hl]
        rw [hstep]
        show (g.callers.set i (.attached b)).countP (fun c => isBuilding c) =
          (match g.lock with | some _ => 1 | none => 0)
        have h1 := countP_set_of_get hgi (.attached b) (fun c => isBuilding c)
        rw [ib_lockCheck, ib_attached] at h1
        have h1' : (g.callers.set i (.attached b)).countP
            (fun c => isBuilding c) =
            g.callers.countP (fun c => isBuilding c) := by omega
        exact h1'.trans hgU
      | none =>
        have hstep : lockStep g i =
            { g with callers := g.callers.set i (.atDoubleCheck g.nextBuild),
                     lock := some g.nextBuild,
                     nextBuild := g.nextBuild + 1 } := by
          unfold lockStep; rw [hgi]
          show (match g.lock with
            | some b => { g with callers := g.callers.set i (.attached b) }
            | none =>
              { g with callers := g.callers.set i (.atDoubleCheck g.nextBuild),
                       lock := some g.nextBuild,
                       nextBuild := g.nextBuild + 1 }) = _
          rw [hl]
        rw [hstep]
        show (g.callers.set i (.atDoubleCheck g.nextBuild)).countP
          (fun c => isBuilding c) = 1
        have h1 := countP_set_of_get hgi (.atDoubleCheck g.nextBuild)
          (fun c => isBuilding c)
        rw [ib_lockCheck, ib_double] at h1
        have hg0 : g.callers.countP (fun c => isBuilding c) = 0 := by
          rw [hl] at hgU; exact hgU
        omega
    | atDoubleCheck b =>
      have hpos : 0 < g.callers.countP (fun c => isBuilding c) :=
        List.countP_pos.mpr ⟨_, hmem, rfl⟩
      have hone : g.callers.countP (fun c => isBuilding c) = 1 := by
        cases hl : g.lock with
        | some b2 => rw [hl] at hgU; exact hgU
        | none =>
          have hg0 : g.callers.countP (fun c => isBuilding c) = 0 := by
            rw [hl] at hgU; exact hgU
          omega
      by_cases ha : g.artifact = true
      · have hstep : lockStep g i =
            { g with callers := g.callers.set i (.done true), lock := none,
                     results := (b, true) :: g.results } := by
          unfold lockStep; rw [hgi]; simp [ha]
        rw [hstep]
        show (g.callers.set i (.done true)).countP (fun c => isBuilding c) = 0
        have h1 := countP_set_of_get hgi (.done true) (fun c => isBuilding c)
        rw [ib_double, ib_done] at h1
        omega
      · have hstep : lockStep g i =
            { g with callers := g.callers.set i (.atCargo b g.cargoCount),
                     cargoCount := g.cargoCount + 1 } := by
          unfold lockStep; rw [hgi]; simp [ha]
        rw [hstep]
        show (g.callers.set i (.atCargo b g.cargoCount)).countP
          (fun c => isBuilding c) =
          (match g.lock with | some _ => 1 | none => 0)
        have h1 := countP_set_of_get hgi (.atCargo b g.cargoCount)
          (fun c => isBuilding c)
        rw [ib_double, ib_cargo] at h1
        have h1' : (g.callers.set i (.atCargo b g.cargoCount)).countP
            (fun c => isBuilding c) =
            g.callers.countP (fun c => isBuilding c) := by omega
        exact h1'.trans hgU
    | atCargo b inv =>
      have hpos : 0 < g.callers.countP (fun c => isBuilding c) :=
        List.countP_pos.mpr ⟨_, hmem, rfl⟩
      have hone : g.callers.countP (fun c => isBuilding c) = 1 := by
        cases hl : g.lock with
        | some b2 => rw [hl] at hgU; exact hgU
        | none =>
          have hg0 : g.callers.countP (fun c => isBuilding c) = 0 := by
            rw [hl] at hgU; exact hgU
          omega
      have hstep : lockStep g i =
          { g with callers := g.callers.set i (.done (g.oracle.getD inv false)),
                   lock := none,
                   artifact := g.artifact || g.oracle.getD inv false,
                   results := (b, g.oracle.getD inv false) :: g.results } := by
        unfold lockStep; rw [hgi]
      rw [hstep]
      show (g.callers.set i (.done (g.oracle.getD inv false))).countP
        (fun c => isBuilding c) = 0
      have h1 := countP_set_of_get hgi (.done (g.oracle.getD inv false))
        (fun c => isBuilding c)
      rw [ib_cargo, ib_done] at h1
      omega
    | attached b =>
      cases hf : g.results.find? (fun e => e.1 == b) with
      | some e =>
        have hstep : lockStep g i =
            { g with callers := g.callers.set i (.done e.2) } := by
          unfold lockStep; rw [hgi]
          show (match g.results.find? (fun e => e.1 == b) with
            | some e => { g with callers := g.callers.set i (.done e.2) }
            | none => g) = _
          rw [hf]
        rw [hstep]
        show (g.callers.set i (.done e.2)).countP (fun c => isBuilding c) =
          (match g.lock with | some _ => 1 | none => 0)
        have h1 := countP_set_of_get hgi (.done e.2) (fun c => isBuilding c)
        rw [ib_attached, ib_done] at h1
        have h1' : (g.callers.set i (.done e.2)).countP
            (fun c => isBuilding c) =
            g.callers.countP (fun c => isBuilding c) := by omega
        exact h1'.trans hgU
      | none =>
        have hstep : lockStep g i = g := by
          unfold lockStep; rw [hgi]
          show (match g.results.find? (fun e => e.1 == b) with
            | some e => { g with callers := g.callers.set i (.done e.2) }
            | none => g) = _
          rw [hf]
        rw [hstep]; exact hg
    | done ok =>
      have hstep : lockStep g i = g := by unfold lockStep; rw [hgi]
      rw [hstep]; exact hg

/-- The invariant holds initially and along every schedule. -/
theorem lockRun_inv {g : LockSt} (hg : lockInv g) :
    ∀ sched : List Nat, lockInv (lockRun g sched) := by
  intro sched
  induction sched generalizing g with
  | nil => exact hg
  | cons i sched ih => exact ih (lockStep_preserves_inv hg i)

/-- C2 (amended): for every ContentKey the build lock gives mutual
exclusion — under every interleaving of any number of concurrent callers, at
most one caller is inside the locked build section (double check through
toolchain invocation) at any instant, and a caller that finds the lock held
attaches instead of invoking the toolchain.  However the claim's
exactly-once and same-outcome guarantees do not survive a FAILED build: the
lock entry is removed on settlement with no artifact committed, so a caller
still in flight may acquire the freed lock and start a second toolchain
invocation with a different outcome (see the counterexample). -/
theorem C2_amended (n : Nat) (oracle : List Bool) (sched : List Nat) :
    buildingCount (lockRun (initLockSt n oracle) sched) ≤ 1 := by
  have hinit : lockInv (initLockSt n oracle) := by
    show (List.replicate n CallerSt.atCacheCheck).countP
      (fun c => isBuilding c) = 0
    rw [List.countP_eq_zero]
    intro c hc
    rw [List.eq_of_mem_replicate hc]
    simp [isBuilding]
  have h := lockRun_inv hinit sched
  unfold lockInv at h
  rw [h]
  cases (lockRun (initLockSt n oracle) sched).lock <;> simp

/-- C2 witness: the amended bound evaluated on the counterexample schedule
and on a prefix where a build is mid-flight. -/
theorem C2_amended_witness :
    buildingCount (lockRun (initLockSt 2 [false, true])
      [0, 0, 0, 1, 0, 1, 1, 1]) ≤ 1 ∧
    buildingCount (lockRun (initLockSt 2 [false, true]) [0, 0, 0, 1]) ≤ 1 :=
  ⟨C2_amended 2 [false, true] [0, 0, 0, 1, 0, 1, 1, 1],
   C2_amended 2 [false, true] [0, 0, 0, 1]⟩
